import Mathlib

/-!
Verification of the adaptive rule engine of SlackChannelChameleon.

The definitions below are a shallow embedding of the rules module
(`rules.ts`): the rule catalog with its conflict expansion, ruleset
validity, the difficulty score, the randomised ruleset search
(`randomValidRuleset`, `mutateRuleset`, `makeEasierRuleset`,
`makeHarderRuleset`), the controller state (`updateRules`,
`addToViolationHistory`, `getFailRatio`, `evaluateChange`) and the
per-message evaluator (`getViolations`).

Randomness (`Math.random()`) is modelled by explicit oracles: a list or
stream of pre-drawn values supplied as a parameter, universally
quantified in the theorems.  Loops whose termination depends on the
random draws (`mutateRuleset`'s toggle-acceptance loop) consume the
oracle and return `none` when it is exhausted, which models the run
not terminating within the supplied draws.  JavaScript numbers are
modelled by `Nat`/`Int`/`Rat` (no overflow is reachable: all involved
quantities are tiny).
-/

namespace Chameleon

/-- A catalog rule.  The display fields (`name`, `description`) and the
`check` capability of the TypeScript `Rule` record play no role in the
ruleset search and are omitted here; check behaviour is modelled
separately for the evaluator (`CheckResult` below). -/
structure Rule where
  id : String
  difficulty : Nat
  conflictsWith : List String
deriving DecidableEq, Repr

/-- The static rule list of `rules.ts` before conflict expansion (each
entry's `conflictsWith` starts empty; the source sets the field only
through the `conflicts.forEach` expansion). -/
def baseRules : List Rule := [
  { id := "all-lowercase", difficulty := 1, conflictsWith := [] },
  { id := "all-uppercase", difficulty := 1, conflictsWith := [] },
  { id := "only-emojis", difficulty := 2, conflictsWith := [] },
  { id := "unique-messages", difficulty := 5, conflictsWith := [] },
  { id := "no-common-words", difficulty := 4, conflictsWith := [] },
  { id := "never-repeats-letters", difficulty := 5, conflictsWith := [] },
  { id := "every-letter", difficulty := 4, conflictsWith := [] },
  { id := "no-spaces", difficulty := 3, conflictsWith := [] },
  { id := "no-punctuation", difficulty := 2, conflictsWith := [] }
]

/-- The unordered conflict pairs of `rules.ts`. -/
def conflictPairs : List (String × String) := [
  ("all-lowercase", "all-uppercase"),
  ("only-emojis", "all-lowercase"),
  ("only-emojis", "all-uppercase"),
  ("only-emojis", "no-common-words"),
  ("only-emojis", "never-repeats-letters"),
  ("only-emojis", "every-letter"),
  ("only-emojis", "no-spaces"),
  ("only-emojis", "no-punctuation"),
  ("never-repeats-letters", "every-letter"),
  ("no-common-words", "no-spaces")
]

/-- One step of the `conflicts.forEach` expansion: if both ids are in the
catalog, push each id onto the other rule's `conflictsWith`; otherwise
(a configuration error, logged in the source) leave the list unchanged. -/
def addConflictPair (rs : List Rule) (p : String × String) : List Rule :=
  if rs.any (fun r => r.id == p.1) && rs.any (fun r => r.id == p.2) then
    rs.map (fun r =>
      if r.id == p.1 then { r with conflictsWith := r.conflictsWith ++ [p.2] }
      else if r.id == p.2 then { r with conflictsWith := r.conflictsWith ++ [p.1] }
      else r)
  else rs

/-- The expanded catalog: `rules` of `rules.ts` after the symmetric
conflict expansion has run. -/
def rules : List Rule := conflictPairs.foldl addConflictPair baseRules

-- Controller tunables (`rules.ts` constants).  The fractional ones are
-- JavaScript `number`s; they are modelled as exact rationals.
def minimumTimeBetweenChanges : Int := 1000 * 60 * 5
def maximumTimeBetweenChanges : Int := 1000 * 60 * 60 * 5
def minFailRatio : ℚ := 1 / 10
def maxFailRatio : ℚ := 1 / 2
def minimumSampleSize : Nat := 10
def maximumMessagesUntilChange : Nat := 100
def changeChance : ℚ := 3 / 10
def completeChangeChance : ℚ := 1 / 20
def initialRoughDifficulty : ℚ := 6
def mutationIterations : Nat := 15
def mutationAmount : Nat := 3

/-- `isValidRuleset`: collect the conflict ids declared by the member
rules and check that none of them is itself a member. -/
def isValidRuleset (ruleset : Finset String) : Bool :=
  let cs := (rules.filter (fun r => decide (r.id ∈ ruleset))).flatMap
    (fun r => r.conflictsWith)
  ! cs.any (fun c => decide (c ∈ ruleset))

/-- Flip membership of `id` in `s` (the body of `mutateRuleset`'s
add/delete branch). -/
def toggleRule (s : Finset String) (id : String) : Finset String :=
  if id ∈ s then s.erase id else insert id s

/-- A fallback rule used to totalise list indexing; every indexing site
proves its index in range, so this value is never selected. -/
def fallbackRule : Rule := { id := "", difficulty := 0, conflictsWith := [] }

/-- The `rules[Math.floor(Math.random() * rules.length)]` pick, with the
random draw `c` reduced modulo the catalog size. -/
def pickRule (c : Nat) : Rule :=
  (rules.get? (c % rules.length)).getD fallbackRule

/-- The `do … while(!isValidRuleset(newRuleset))` loop of
`mutateRuleset`: draw a random catalog index, flip that rule's
membership on a copy of `old`, and accept the first flip that yields a
valid set.  The oracle `cs` supplies the successive draws; exhausting it
models a run of the loop that never accepts within the supplied draws. -/
def tryToggles (old : Finset String) : List Nat → Option (Finset String × List Nat)
  | [] => none
  | c :: cs =>
    if isValidRuleset (toggleRule old (pickRule c).id) then
      some (toggleRule old (pickRule c).id, cs)
    else tryToggles old cs

/-- The `for` loop of `mutateRuleset`: `amount` accepted toggles in
sequence, threading the random oracle. -/
def mutateRulesetAux : Nat → Finset String → List Nat → Option (Finset String × List Nat)
  | 0, s, cs => some (s, cs)
  | k + 1, s, cs =>
    match tryToggles s cs with
    | none => none
    | some (next, cs2) => mutateRulesetAux k next cs2

/-- `mutateRuleset(currentRuleset, amount)`: `amount` accepted random
membership flips, each accepted only if the flipped set is valid.
Returns the new set and the unconsumed part of the oracle. -/
def mutateRuleset (current : Finset String) (amount : Nat) (picks : List Nat) :
    Option (Finset String × List Nat) :=
  mutateRulesetAux amount current picks

/-- `getAdditionalValidRules`: the catalog rules not already in the set
whose addition keeps the set valid.  The source builds a JavaScript
`Set` from the filtered array; its iteration order is the insertion
order, i.e. catalog order, so a list in catalog order is the faithful
domain for the random pick in `randomValidRuleset`. -/
def getAdditionalValidRules (current : Finset String) : List String :=
  (rules.filter (fun r =>
    (! decide (r.id ∈ current)) && isValidRuleset (insert r.id current))).map
    (fun r => r.id)

/-- The `rules.find(rule => rule.id === id)!.difficulty` lookup of
`calculateDifficulty`.  The source's non-null assertion would throw on
an id outside the catalog; every call site passes catalog ids, for
which the fallback 0 is never taken. -/
def ruleWeight (id : String) : Nat :=
  ((rules.find? (fun r => r.id == id)).map (fun r => r.difficulty)).getD 0

/-- `calculateDifficulty(ruleset)`: sum of the member rules' difficulty
weights (the source's `map … reduce((acc, val) => (acc ?? 0) + val, 0)`). -/
def calculateDifficulty (ruleset : Finset String) : Nat :=
  ruleset.sum ruleWeight

/-- The `Array.from(validRules)[Math.floor(Math.random() * validRules.size)]`
pick of `randomValidRuleset`, with the random draw `c` reduced modulo
the number of admissible additions. -/
def pickAddition (s : Finset String) (c : Nat) : String :=
  (getAdditionalValidRules s).getD (c % (getAdditionalValidRules s).length) ""

/-- The `while` loop of `randomValidRuleset`: while the accumulated
difficulty is below the target, pick a uniformly random admissible
addition and insert it; stop when no admissible addition remains.  Each
iteration inserts an id not yet in the set, so at most `rules.length`
iterations run; the fuel (always passed as `rules.length + 1`) can
therefore never be exhausted, and the fuel-0 branch returning the set
built so far is dead code of the model.  `picks step` is the random
draw of iteration `step`. -/
def randomValidBuild (picks : Nat → Nat) (rough : ℚ) :
    Nat → Nat → Finset String → Finset String
  | 0, _, s => s
  | fuel + 1, step, s =>
    if (calculateDifficulty s : ℚ) < rough then
      if (getAdditionalValidRules s).isEmpty then s
      else randomValidBuild picks rough fuel (step + 1)
        (insert (pickAddition s (picks step)) s)
    else s

/-- The retry wrapper of `randomValidRuleset(roughDifficulty, attempt)`.
The source retries while the built set is empty and `attempt < 10`;
here `retriesLeft = 10 - attempt` drives the structural recursion, and
`picks attempt` is the fresh random stream of that attempt. -/
def randomValidAux (rough : ℚ) (picks : Nat → Nat → Nat) :
    Nat → Nat → Finset String
  | attempt, 0 => randomValidBuild (picks attempt) rough (rules.length + 1) 0 ∅
  | attempt, retriesLeft + 1 =>
    let s := randomValidBuild (picks attempt) rough (rules.length + 1) 0 ∅
    if s = ∅ then randomValidAux rough picks (attempt + 1) retriesLeft else s

/-- `randomValidRuleset(roughDifficulty)` with the default `attempt = 0`:
up to 10 retries when the built set comes out empty, after which the
(empty) set is returned as an ordinary value — the source has no error
channel here, only a `console.error` log per retry. -/
def randomValidRuleset (rough : ℚ) (picks : Nat → Nat → Nat) : Finset String :=
  randomValidAux rough picks 0 10

/-- The `Array.from({length: n}, () => mutateRuleset(current, 3))`
candidate generation of `makeEasierRuleset`/`makeHarderRuleset`,
threading one random oracle through the successive `mutateRuleset`
calls. -/
def genCandidates (current : Finset String) :
    Nat → List Nat → Option (List (Finset String) × List Nat)
  | 0, picks => some ([], picks)
  | n + 1, picks =>
    match mutateRuleset current mutationAmount picks with
    | none => none
    | some (r, rest) =>
      match genCandidates current n rest with
      | none => none
      | some (rs, rest2) => some (r :: rs, rest2)

/-- `makeEasierRuleset(currentRuleset)`.  The source sorts the filtered
candidates with comparator `(a, b) => diff(current) - diff(a)`, which
ignores its second argument and is strictly positive on every filtered
element; ECMAScript leaves the resulting order implementation-defined
(V8's insertion sort performs no moves on such a comparator, leaving
the order unchanged).  The sort is therefore modelled as a parameter
`sortImpl`, constrained in the theorems to permute its input, with the
identity instantiating the engine-observed behaviour.  `.pop()` on the
sorted array is `getLast?`; an empty filtered list gives
`success = false` with the current ruleset returned unchanged. -/
def makeEasierRuleset (sortImpl : List (Finset String) → List (Finset String))
    (current : Finset String) (picks : List Nat) : Option (Bool × Finset String) :=
  match genCandidates current mutationIterations picks with
  | none => none
  | some (cands, _) =>
    match (sortImpl (cands.filter
        (fun r => calculateDifficulty r < calculateDifficulty current))).getLast? with
    | none => some (false, current)
    | some closest => some (true, closest)

/-- `makeHarderRuleset(currentRuleset)`: symmetric to
`makeEasierRuleset`, keeping the candidates of strictly higher
difficulty (its comparator `(a, b) => diff(a) - diff(current)` is
likewise independent of `b` and strictly positive on every kept
element, so the same `sortImpl` parameter models the sort). -/
def makeHarderRuleset (sortImpl : List (Finset String) → List (Finset String))
    (current : Finset String) (picks : List Nat) : Option (Bool × Finset String) :=
  match genCandidates current mutationIterations picks with
  | none => none
  | some (cands, _) =>
    match (sortImpl (cands.filter
        (fun r => calculateDifficulty current < calculateDifficulty r))).getLast? with
    | none => some (false, current)
    | some closest => some (true, closest)

/-- One entry of `violationHistoryForThisRuleset`: the rules one message
violated. -/
structure ViolationRecord where
  violations : List Rule
deriving DecidableEq, Repr

/-- The controller's mutable module state: `activeRules`,
`violationHistoryForThisRuleset` and `lastRulesetChange`. -/
structure EngineState where
  activeRules : Finset String
  history : List ViolationRecord
  lastRulesetChange : Int
deriving DecidableEq

/-- The state effect of `updateRules(newRuleset, reason, app)`: copy the
new ruleset into `activeRules`, clear the history and reset the clock.
The remainder of the source function is chat/canvas announcement I/O
with no effect on engine state. -/
def updateRules (newRuleset : Finset String) (now : Int) (_st : EngineState) :
    EngineState :=
  { activeRules := newRuleset, history := [], lastRulesetChange := now }

/-- `addToViolationHistory(violations)`: push one record. -/
def addToViolationHistory (violations : List Rule) (st : EngineState) :
    EngineState :=
  { st with history := st.history ++ [{ violations := violations }] }

/-- `getFailRatio()`: violating records over total records.  On an empty
history the source computes `0 / 0 = NaN`; that case is modelled as
`none`. -/
def getFailRatio (history : List ViolationRecord) : Option ℚ :=
  if history.length = 0 then none
  else some (((history.filter
      (fun v => decide (0 < v.violations.length))).length : ℚ) /
    (history.length : ℚ))

/-- The pre-drawn randomness one `evaluateChange` call may consume: the
two `Math.random()` coin flips, the pick streams of
`randomValidRuleset` and the toggle stream of the mutation search. -/
structure RandomOracle where
  coin1 : ℚ
  coin2 : ℚ
  buildPicks : Nat → Nat → Nat
  mutatePicks : List Nat

/-- The full-regeneration target difficulty
`(initialRoughDifficulty + calculateDifficulty(activeRules)) / 2`
(JavaScript division, hence a rational). -/
def regenTarget (st : EngineState) : ℚ :=
  (initialRoughDifficulty + (calculateDifficulty st.activeRules : ℚ)) / 2

/-- `evaluateChange(app)` as a transformer of the engine state.  `now`
is `Date.now()`; the decision cascade follows the source line by line.
In the branch that consults the fail ratio, the `none` (NaN) case falls
through to the `completeChangeChance` coin exactly as the source does
(in JavaScript both `NaN > maxFailRatio` and `NaN < minFailRatio` are
false).  A `none` result models a run whose mutation search consumed
the whole toggle oracle without acceptance (the source would spin in
`mutateRuleset`'s unbounded loop).  `completeChangeStage` is the final
`if(Math.random() < completeChangeChance)` block, reached by falling
through the earlier branches. -/
def completeChangeStage (o : RandomOracle) (now : Int) (st : EngineState) :
    Option EngineState :=
  if o.coin2 < completeChangeChance then
    some (updateRules (randomValidRuleset (regenTarget st) o.buildPicks) now st)
  else some st

def evaluateChange (o : RandomOracle)
    (sortImpl : List (Finset String) → List (Finset String))
    (now : Int) (st : EngineState) : Option EngineState :=
  if now - st.lastRulesetChange < minimumTimeBetweenChanges then some st
  else if maximumTimeBetweenChanges < now - st.lastRulesetChange then
    some (updateRules (randomValidRuleset (regenTarget st) o.buildPicks) now st)
  else if st.history.length < minimumSampleSize then some st
  else if maximumMessagesUntilChange < st.history.length then
    some (updateRules (randomValidRuleset (regenTarget st) o.buildPicks) now st)
  else if o.coin1 < changeChance then
    match getFailRatio st.history with
    | none => completeChangeStage o now st
    | some failRatio =>
      if maxFailRatio < failRatio then
        match makeEasierRuleset sortImpl st.activeRules o.mutatePicks with
        | none => none
        | some (success, ruleset) =>
          if success then some (updateRules ruleset now st)
          else some (updateRules (randomValidRuleset (regenTarget st) o.buildPicks) now st)
      else if failRatio < minFailRatio then
        match makeHarderRuleset sortImpl st.activeRules o.mutatePicks with
        | none => none
        | some (success, ruleset) =>
          if success then some (updateRules ruleset now st)
          else some (updateRules (randomValidRuleset (regenTarget st) o.buildPicks) now st)
      else completeChangeStage o now st
  else completeChangeStage o now st

/-- The behaviour of one rule's `check(message, app)` call for the
message under evaluation: it may return a boolean synchronously, throw
synchronously, return a promise that resolves to a boolean, or return a
promise that rejects. -/
inductive CheckResult where
  | sync (b : Bool)
  | syncThrow
  | async (b : Bool)
  | asyncReject
deriving DecidableEq, Repr

/-- A settled promise as produced by the per-rule closures of
`getViolations`: resolved with `some rule` (violated), resolved with
`none` (passed), or rejected. -/
inductive PromiseVal where
  | resolved (v : Option Rule)
  | rejected
deriving DecidableEq, Repr

/-- The `rules.filter(rule => activeRules.has(rule.id))` snapshot. -/
def activeRulesList (active : Finset String) : List Rule :=
  rules.filter (fun r => decide (r.id ∈ active))

/-- The `.map` of `getViolations` that invokes every active rule's
check and builds `violationPromises`.  A synchronous throw escapes the
`.map` callback at that element, so no promise list is produced and the
checks of the remaining rules are never invoked (`none`). -/
def launchChecks (checkOf : String → CheckResult) :
    List Rule → Option (List PromiseVal)
  | [] => some []
  | r :: rest =>
    match checkOf r.id with
    | .syncThrow => none
    | .sync b =>
      (launchChecks checkOf rest).map
        (fun l => PromiseVal.resolved (if b then none else some r) :: l)
    | .async b =>
      (launchChecks checkOf rest).map
        (fun l => PromiseVal.resolved (if b then none else some r) :: l)
    | .asyncReject =>
      (launchChecks checkOf rest).map (fun l => PromiseVal.rejected :: l)

/-- `Promise.all(violationPromises)`: rejects whenever any member
promise rejects, otherwise resolves with the list of values. -/
def promiseAll : List PromiseVal → Except Unit (List (Option Rule))
  | [] => .ok []
  | .rejected :: _ => .error ()
  | .resolved v :: rest => (promiseAll rest).map (fun l => v :: l)

/-- `getViolations(message, app)`, with the per-rule check behaviour for
the given message supplied as `checkOf`.  `.error` is a rejection of
the returned promise, reaching the caller either from a synchronous
throw inside the `.map` or from `Promise.all` rejecting; `.ok` carries
the `filter(violation => violation !== undefined)` result. -/
def getViolations (checkOf : String → CheckResult) (active : Finset String) :
    Except Unit (List Rule) :=
  match launchChecks checkOf (activeRulesList active) with
  | none => .error ()
  | some ps => (promiseAll ps).map (fun l => l.filterMap id)

/-! ### Helper lemmas -/

lemma mem_of_getLast_opt {α : Type _} {l : List α} {a : α}
    (h : l.getLast? = some a) : a ∈ l := by
  obtain ⟨hne, heq⟩ :=
    List.mem_getLast?_eq_getLast (l := l) (x := a) (by simp [h])
  rw [heq]
  exact List.getLast_mem hne

lemma tryToggles_valid {old next : Finset String} {cs rest : List Nat}
    (h : tryToggles old cs = some (next, rest)) : isValidRuleset next = true := by
  induction cs with
  | nil => simp [tryToggles] at h
  | cons c cs ih =>
    rw [tryToggles] at h
    split at h
    · obtain ⟨rfl, rfl⟩ : toggleRule old (pickRule c).id = next ∧ cs = rest := by
        simpa using h
      assumption
    · exact ih h

lemma toggleRule_card (s : Finset String) (id : String) :
    (toggleRule s id).card + 1 = s.card ∨ (toggleRule s id).card = s.card + 1 := by
  unfold toggleRule
  split
  · exact Or.inl (Finset.card_erase_add_one (by assumption))
  · exact Or.inr (Finset.card_insert_of_not_mem (by assumption))

lemma tryToggles_card {old next : Finset String} {cs rest : List Nat}
    (h : tryToggles old cs = some (next, rest)) :
    next.card + 1 = old.card ∨ next.card = old.card + 1 := by
  induction cs with
  | nil => simp [tryToggles] at h
  | cons c cs ih =>
    rw [tryToggles] at h
    split at h
    · obtain ⟨rfl, rfl⟩ : toggleRule old (pickRule c).id = next ∧ cs = rest := by
        simpa using h
      exact toggleRule_card old (pickRule c).id
    · exact ih h

lemma mutateRulesetAux_valid :
    ∀ (k : Nat) (s : Finset String) (cs : List Nat) (out : Finset String × List Nat),
      mutateRulesetAux k s cs = some out → isValidRuleset s = true →
      isValidRuleset out.1 = true := by
  intro k
  induction k with
  | zero =>
    intro s cs out h hs
    obtain rfl : (s, cs) = out := by simpa [mutateRulesetAux] using h
    exact hs
  | succ k ih =>
    intro s cs out h hs
    rw [mutateRulesetAux] at h
    cases ht : tryToggles s cs with
    | none => rw [ht] at h; exact absurd h (by simp)
    | some p =>
      rw [ht] at h
      have hv : isValidRuleset p.1 = true :=
        tryToggles_valid (show tryToggles s cs = some (p.1, p.2) by rw [ht])
      exact ih p.1 p.2 out h hv

lemma mutateRulesetAux_card_parity :
    ∀ (k : Nat) (s : Finset String) (cs : List Nat) (out : Finset String × List Nat),
      mutateRulesetAux k s cs = some out →
      out.1.card % 2 = (s.card + k) % 2 := by
  intro k
  induction k with
  | zero =>
    intro s cs out h
    obtain rfl : (s, cs) = out := by simpa [mutateRulesetAux] using h
    simp
  | succ k ih =>
    intro s cs out h
    rw [mutateRulesetAux] at h
    cases ht : tryToggles s cs with
    | none => rw [ht] at h; exact absurd h (by simp)
    | some p =>
      rw [ht] at h
      have hcard := tryToggles_card (by rw [ht] : tryToggles s cs = some (p.1, p.2))
      have := ih p.1 p.2 out h
      omega

lemma mem_getAdditionalValidRules {x : String} {s : Finset String}
    (h : x ∈ getAdditionalValidRules s) : isValidRuleset (insert x s) = true := by
  unfold getAdditionalValidRules at h
  simp only [List.mem_map, List.mem_filter] at h
  obtain ⟨r, ⟨-, hcond⟩, rfl⟩ := h
  simp only [Bool.and_eq_true] at hcond
  exact hcond.2

lemma pickAddition_mem {s : Finset String} (c : Nat)
    (h : (getAdditionalValidRules s).isEmpty = false) :
    pickAddition s c ∈ getAdditionalValidRules s := by
  unfold pickAddition
  have hne : getAdditionalValidRules s ≠ [] := by
    simpa [List.isEmpty_iff] using h
  have hlen : c % (getAdditionalValidRules s).length <
      (getAdditionalValidRules s).length :=
    Nat.mod_lt _ (List.length_pos.mpr hne)
  rw [List.getD_eq_getElem?_getD, List.getElem?_eq_getElem hlen]
  exact List.getElem_mem hlen

lemma randomValidBuild_succ (picks : Nat → Nat) (rough : ℚ) (fuel step : Nat)
    (s : Finset String) :
    randomValidBuild picks rough (fuel + 1) step s =
      if (calculateDifficulty s : ℚ) < rough then
        if (getAdditionalValidRules s).isEmpty then s
        else randomValidBuild picks rough fuel (step + 1)
          (insert (pickAddition s (picks step)) s)
      else s := rfl

lemma randomValidBuild_subset (picks : Nat → Nat) (rough : ℚ) :
    ∀ (fuel step : Nat) (s : Finset String),
      s ⊆ randomValidBuild picks rough fuel step s := by
  intro fuel
  induction fuel with
  | zero => intro step s; exact subset_rfl
  | succ f ih =>
    intro step s
    rw [randomValidBuild_succ]
    split
    · split
      · exact subset_rfl
      · exact (Finset.subset_insert _ _).trans (ih _ _)
    · exact subset_rfl

lemma randomValidBuild_valid (picks : Nat → Nat) (rough : ℚ) :
    ∀ (fuel step : Nat) (s : Finset String), isValidRuleset s = true →
      isValidRuleset (randomValidBuild picks rough fuel step s) = true := by
  intro fuel
  induction fuel with
  | zero => intro step s hs; exact hs
  | succ f ih =>
    intro step s hs
    rw [randomValidBuild_succ]
    split
    · split
      · exact hs
      · refine ih _ _ ?_
        refine mem_getAdditionalValidRules (pickAddition_mem _ ?_)
        simp_all
    · exact hs

lemma isValidRuleset_empty : isValidRuleset ∅ = true := by decide

lemma randomValidBuild_init_nonempty (picks : Nat → Nat) (rough : ℚ)
    (h : 1 ≤ rough) :
    randomValidBuild picks rough (rules.length + 1) 0 ∅ ≠ ∅ := by
  have h0 : ((calculateDifficulty (∅ : Finset String) : ℚ)) < rough := by
    have he : calculateDifficulty (∅ : Finset String) = 0 := rfl
    rw [he]
    push_cast
    linarith
  have hne : (getAdditionalValidRules ∅).isEmpty = false := by decide
  rw [randomValidBuild_succ, if_pos h0, if_neg (by simp [hne])]
  intro hcontra
  have hsub := randomValidBuild_subset picks rough rules.length 1
    (insert (pickAddition ∅ (picks 0)) ∅)
  rw [hcontra] at hsub
  exact absurd (hsub (Finset.mem_insert_self _ _)) (by simp)

lemma randomValidAux_zero (rough : ℚ) (picks : Nat → Nat → Nat) (attempt : Nat) :
    randomValidAux rough picks attempt 0 =
      randomValidBuild (picks attempt) rough (rules.length + 1) 0 ∅ := rfl

lemma randomValidAux_succ (rough : ℚ) (picks : Nat → Nat → Nat)
    (attempt retriesLeft : Nat) :
    randomValidAux rough picks attempt (retriesLeft + 1) =
      if randomValidBuild (picks attempt) rough (rules.length + 1) 0 ∅ = ∅ then
        randomValidAux rough picks (attempt + 1) retriesLeft
      else randomValidBuild (picks attempt) rough (rules.length + 1) 0 ∅ := rfl

lemma randomValidAux_valid (rough : ℚ) (picks : Nat → Nat → Nat) :
    ∀ (retriesLeft attempt : Nat),
      isValidRuleset (randomValidAux rough picks attempt retriesLeft) = true := by
  intro retriesLeft
  induction retriesLeft with
  | zero =>
    intro attempt
    rw [randomValidAux_zero]
    exact randomValidBuild_valid _ _ _ _ _ isValidRuleset_empty
  | succ r ih =>
    intro attempt
    rw [randomValidAux_succ]
    split
    · exact ih _
    · exact randomValidBuild_valid _ _ _ _ _ isValidRuleset_empty

lemma randomValidRuleset_valid (rough : ℚ) (picks : Nat → Nat → Nat) :
    isValidRuleset (randomValidRuleset rough picks) = true :=
  randomValidAux_valid rough picks 10 0

lemma randomValidAux_nonempty (rough : ℚ) (picks : Nat → Nat → Nat)
    (h : 1 ≤ rough) :
    ∀ (retriesLeft attempt : Nat),
      randomValidAux rough picks attempt retriesLeft ≠ ∅ := by
  intro retriesLeft
  cases retriesLeft with
  | zero =>
    intro attempt
    rw [randomValidAux_zero]
    exact randomValidBuild_init_nonempty _ _ h
  | succ r =>
    intro attempt
    rw [randomValidAux_succ]
    split
    · exact absurd (by assumption) (randomValidBuild_init_nonempty _ _ h)
    · assumption

lemma genCandidates_mem (current : Finset String) :
    ∀ (n : Nat) (picks : List Nat) (cands : List (Finset String)) (rest : List Nat),
      genCandidates current n picks = some (cands, rest) →
      ∀ r ∈ cands, ∃ p q, mutateRuleset current mutationAmount p = some (r, q) := by
  intro n
  induction n with
  | zero =>
    intro picks cands rest h r hr
    obtain ⟨rfl, rfl⟩ : [] = cands ∧ picks = rest := by
      simpa [genCandidates] using h
    simp at hr
  | succ n ih =>
    intro picks cands rest h r hr
    rw [genCandidates] at h
    split at h
    · exact absurd h (by simp)
    · rename_i r0 rest0 hm
      split at h
      · exact absurd h (by simp)
      · rename_i rs0 rest1 hg
        obtain ⟨rfl, rfl⟩ : r0 :: rs0 = cands ∧ rest1 = rest := by simpa using h
        rcases List.mem_cons.mp hr with rfl | hr2
        · exact ⟨picks, rest0, hm⟩
        · exact ih rest0 rs0 rest1 hg r hr2

/-- The shared shape of `makeEasierRuleset`/`makeHarderRuleset`: on a
`some` result, either `success = false` with the current ruleset
returned unchanged, or `success = true` with a returned set that passed
the difficulty filter and is one of the generated mutation candidates. -/
lemma makeEasierRuleset_spec
    (sortImpl : List (Finset String) → List (Finset String))
    (hs : ∀ l, (sortImpl l).Perm l)
    (current : Finset String) (picks : List Nat) (b : Bool) (R2 : Finset String)
    (h : makeEasierRuleset sortImpl current picks = some (b, R2)) :
    (b = false ∧ R2 = current) ∨
    (b = true ∧ calculateDifficulty R2 < calculateDifficulty current ∧
      ∃ p q, mutateRuleset current mutationAmount p = some (R2, q)) := by
  unfold makeEasierRuleset at h
  split at h
  · exact absurd h (by simp)
  · rename_i cands rest2 hg
    split at h
    · rename_i hl
      obtain ⟨rfl, rfl⟩ : false = b ∧ current = R2 := by simpa using h
      exact Or.inl ⟨rfl, rfl⟩
    · rename_i closest hl
      obtain ⟨rfl, rfl⟩ : true = b ∧ closest = R2 := by simpa using h
      have hmem := (hs _).mem_iff.mp (mem_of_getLast_opt hl)
      have hmem2 := List.mem_filter.mp hmem
      refine Or.inr ⟨rfl, by simpa using hmem2.2, ?_⟩
      exact genCandidates_mem current mutationIterations picks cands rest2
        hg _ hmem2.1

lemma makeHarderRuleset_spec
    (sortImpl : List (Finset String) → List (Finset String))
    (hs : ∀ l, (sortImpl l).Perm l)
    (current : Finset String) (picks : List Nat) (b : Bool) (R2 : Finset String)
    (h : makeHarderRuleset sortImpl current picks = some (b, R2)) :
    (b = false ∧ R2 = current) ∨
    (b = true ∧ calculateDifficulty current < calculateDifficulty R2 ∧
      ∃ p q, mutateRuleset current mutationAmount p = some (R2, q)) := by
  unfold makeHarderRuleset at h
  split at h
  · exact absurd h (by simp)
  · rename_i cands rest2 hg
    split at h
    · rename_i hl
      obtain ⟨rfl, rfl⟩ : false = b ∧ current = R2 := by simpa using h
      exact Or.inl ⟨rfl, rfl⟩
    · rename_i closest hl
      obtain ⟨rfl, rfl⟩ : true = b ∧ closest = R2 := by simpa using h
      have hmem := (hs _).mem_iff.mp (mem_of_getLast_opt hl)
      have hmem2 := List.mem_filter.mp hmem
      refine Or.inr ⟨rfl, by simpa using hmem2.2, ?_⟩
      exact genCandidates_mem current mutationIterations picks cands rest2
        hg _ hmem2.1

lemma mutateRuleset_valid {current : Finset String} {amount : Nat}
    {picks : List Nat} {out : Finset String × List Nat}
    (h : mutateRuleset current amount picks = some out)
    (hv : isValidRuleset current = true) : isValidRuleset out.1 = true :=
  mutateRulesetAux_valid amount current picks out h hv

/-- Every `some` outcome of `evaluateChange` is the unchanged state or an
`updateRules` installation of a full regeneration or of a successful
mutation-search result. -/
lemma evaluateChange_shape (o : RandomOracle)
    (sortImpl : List (Finset String) → List (Finset String))
    (now : Int) (st st2 : EngineState)
    (h : evaluateChange o sortImpl now st = some st2) :
    st2 = st ∨
    st2 = updateRules (randomValidRuleset (regenTarget st) o.buildPicks) now st ∨
    (∃ rs, st2 = updateRules rs now st ∧
      (makeEasierRuleset sortImpl st.activeRules o.mutatePicks = some (true, rs) ∨
       makeHarderRuleset sortImpl st.activeRules o.mutatePicks = some (true, rs))) := by
  have hstage : ∀ st3, completeChangeStage o now st = some st3 →
      st3 = st ∨
      st3 = updateRules (randomValidRuleset (regenTarget st) o.buildPicks) now st := by
    intro st3 hc
    unfold completeChangeStage at hc
    split at hc
    · exact Or.inr (by simpa using hc.symm)
    · exact Or.inl (by simpa using hc.symm)
  unfold evaluateChange at h
  split at h
  · exact Or.inl (by simpa using h.symm)
  split at h
  · exact Or.inr (Or.inl (by simpa using h.symm))
  split at h
  · exact Or.inl (by simpa using h.symm)
  split at h
  · exact Or.inr (Or.inl (by simpa using h.symm))
  split at h
  · split at h
    · rcases hstage st2 h with h1 | h2
      · exact Or.inl h1
      · exact Or.inr (Or.inl h2)
    · split at h
      · split at h
        · exact absurd h (by simp)
        · rename_i success ruleset hme
          split at h
          · rename_i hsucc
            refine Or.inr (Or.inr ⟨ruleset, by simpa using h.symm, Or.inl ?_⟩)
            rw [hsucc] at hme
            exact hme
          · exact Or.inr (Or.inl (by simpa using h.symm))
      split at h
      · split at h
        · exact absurd h (by simp)
        · rename_i success ruleset hmh
          split at h
          · rename_i hsucc
            refine Or.inr (Or.inr ⟨ruleset, by simpa using h.symm, Or.inr ?_⟩)
            rw [hsucc] at hmh
            exact hmh
          · exact Or.inr (Or.inl (by simpa using h.symm))
      · rcases hstage st2 h with h1 | h2
        · exact Or.inl h1
        · exact Or.inr (Or.inl h2)
  · rcases hstage st2 h with h1 | h2
    · exact Or.inl h1
    · exact Or.inr (Or.inl h2)

/-- A rule whose check fails for the message: a synchronous throw or a
rejected promise. -/
def ruleFails (checkOf : String → CheckResult) (r : Rule) : Bool :=
  checkOf r.id == .syncThrow || checkOf r.id == .asyncReject

/-- A rule whose check completes and reports a violation (returns or
resolves to `false`). -/
def ruleViolated (checkOf : String → CheckResult) (r : Rule) : Bool :=
  checkOf r.id == .sync false || checkOf r.id == .async false

lemma launchChecks_ok (checkOf : String → CheckResult) :
    ∀ l : List Rule, (∀ r ∈ l, ruleFails checkOf r = false) →
      launchChecks checkOf l = some (l.map (fun r =>
        PromiseVal.resolved (if ruleViolated checkOf r then some r else none))) := by
  intro l
  induction l with
  | nil => intro _; rfl
  | cons r rest ih =>
    intro hgood
    have hr := hgood r (List.mem_cons_self r rest)
    have hrest := ih (fun x hx => hgood x (List.mem_cons_of_mem r hx))
    rw [launchChecks]
    cases hc : checkOf r.id with
    | syncThrow => rw [ruleFails, hc] at hr; simp at hr
    | asyncReject => rw [ruleFails, hc] at hr; simp at hr
    | sync b =>
      rw [hrest]
      cases b <;> simp [ruleViolated, hc]
    | async b =>
      rw [hrest]
      cases b <;> simp [ruleViolated, hc]

lemma promiseAll_resolved (f : Rule → Option Rule) :
    ∀ l : List Rule,
      promiseAll (l.map (fun r => PromiseVal.resolved (f r))) = .ok (l.map f) := by
  intro l
  induction l with
  | nil => rfl
  | cons r rest ih => rw [List.map_cons, promiseAll, ih]; rfl

lemma filterMap_id_ifmap (p : Rule → Bool) :
    ∀ l : List Rule,
      (l.map (fun r => if p r then some r else none)).filterMap id = l.filter p := by
  intro l
  induction l with
  | nil => rfl
  | cons r rest ih =>
    cases hp : p r <;> simp [List.filter_cons, hp, ih]

lemma launchChecks_fail (checkOf : String → CheckResult) :
    ∀ l : List Rule, (∃ r ∈ l, ruleFails checkOf r = true) →
      launchChecks checkOf l = none ∨
      ∃ ps, launchChecks checkOf l = some ps ∧ promiseAll ps = .error () := by
  intro l
  induction l with
  | nil => rintro ⟨r, hr, -⟩; simp at hr
  | cons r rest ih =>
    rintro ⟨x, hx, hfail⟩
    rw [launchChecks]
    cases hc : checkOf r.id with
    | syncThrow => exact Or.inl rfl
    | asyncReject =>
      cases hrest : launchChecks checkOf rest with
      | none => exact Or.inl rfl
      | some ps =>
        exact Or.inr ⟨PromiseVal.rejected :: ps, rfl, rfl⟩
    | sync b =>
      have hxrest : x ∈ rest := by
        rcases List.mem_cons.mp hx with rfl | h2
        · rw [ruleFails, hc] at hfail; simp at hfail
        · exact h2
      rcases ih ⟨x, hxrest, hfail⟩ with hnone | ⟨ps, hps, herr⟩
      · rw [hnone]; exact Or.inl rfl
      · rw [hps]
        exact Or.inr ⟨_, rfl, by simp [promiseAll, herr, Except.map]⟩
    | async b =>
      have hxrest : x ∈ rest := by
        rcases List.mem_cons.mp hx with rfl | h2
        · rw [ruleFails, hc] at hfail; simp at hfail
        · exact h2
      rcases ih ⟨x, hxrest, hfail⟩ with hnone | ⟨ps, hps, herr⟩
      · rw [hnone]; exact Or.inl rfl
      · rw [hps]
        exact Or.inr ⟨_, rfl, by simp [promiseAll, herr, Except.map]⟩

/-! ### Concrete fixtures used by counterexamples and witnesses -/

/-- A constant random stream (every draw is 0). -/
def zeroPicks : Nat → Nat → Nat := fun _ _ => 0

/-- A fixed random oracle whose coins never fire and whose pick streams
are constant. -/
def o0 : RandomOracle :=
  { coin1 := 1, coin2 := 1, buildPicks := zeroPicks, mutatePicks := [] }

/-- An engine state with a nonempty active ruleset and empty history. -/
def prevState : EngineState :=
  { activeRules := {"no-spaces"}, history := [], lastRulesetChange := 0 }

/-- An engine state whose history holds ten records that all violate at
least one rule (a 100% fail ratio). -/
def fullFailState : EngineState :=
  { activeRules := {"no-spaces"},
    history := List.replicate 10 { violations := [fallbackRule] },
    lastRulesetChange := 0 }

/-- A toggle oracle for `makeEasierRuleset` on `{"unique-messages"}`:
the first mutation produces `{"all-lowercase", "no-spaces"}`
(difficulty 4), the middle thirteen produce
`{"unique-messages", "all-lowercase"}` (difficulty 6, filtered out) and
the last produces `{"all-lowercase", "no-punctuation"}` (difficulty 3). -/
def c4picks : List Nat := [3, 0, 7] ++ List.replicate 39 0 ++ [3, 0, 8]

/-- The candidate list `makeEasierRuleset` generates from
`{"unique-messages"}` under the `c4picks` oracle. -/
def c4cands : List (Finset String) :=
  ((genCandidates {"unique-messages"} mutationIterations c4picks).map
    Prod.fst).getD []

/-- Check behaviour where every active rule's check completes:
`no-spaces` reports a violation synchronously, every other rule's check
resolves to true. -/
def goodCheck : String → CheckResult := fun id =>
  if id == "no-spaces" then .sync false else .async true

/-- Check behaviour where `every-letter`'s check rejects while
`no-spaces`'s check completes and reports a violation. -/
def failingCheck : String → CheckResult := fun id =>
  if id == "every-letter" then .asyncReject
  else if id == "no-spaces" then .sync false
  else .sync true

/-! ### Claims -/

/-- C1, counterexample: with rules `every-letter` and `no-spaces` active,
`every-letter`'s check rejects and `no-spaces`'s check completes with a
violation; the claim requires a violated set containing `no-spaces`
(excluding only the failing rule), but `getViolations` rejects as a
whole (`Promise.all` is fail-fast and the source installs no per-rule
handler), returning no violated set at all. -/
theorem getViolations_not_isolated_cex :
    getViolations failingCheck {"every-letter", "no-spaces"} = .error ()
    ∧ failingCheck "no-spaces" = .sync false
    ∧ "no-spaces" ∈ ({"every-letter", "no-spaces"} : Finset String) := by
  refine ⟨rfl, rfl, by decide⟩

/-- C1, amended: if every active rule's check completes, `getViolations`
resolves with exactly the completed checks that reported a violation;
but if any active rule's check fails (throws synchronously or rejects),
the whole `getViolations` call rejects — no violated set is returned
for that message and the outcomes of the other rules' checks are
discarded, rather than the failure being isolated to the one rule. -/
theorem getViolations_failfast (checkOf : String → CheckResult)
    (active : Finset String) :
    ((∀ r ∈ activeRulesList active, ruleFails checkOf r = false) →
      getViolations checkOf active =
        .ok ((activeRulesList active).filter (ruleViolated checkOf)))
    ∧ ((∃ r ∈ activeRulesList active, ruleFails checkOf r = true) →
      getViolations checkOf active = .error ()) := by
  constructor
  · intro hgood
    unfold getViolations
    rw [launchChecks_ok checkOf _ hgood]
    simp only [promiseAll_resolved, Except.map, filterMap_id_ifmap]
  · intro hfail
    unfold getViolations
    rcases launchChecks_fail checkOf _ hfail with hnone | ⟨ps, hps, herr⟩
    · rw [hnone]
    · rw [hps]
      simp only [herr, Except.map]

theorem getViolations_failfast_witness :
    getViolations goodCheck {"every-letter", "no-spaces"} =
      .ok ((activeRulesList {"every-letter", "no-spaces"}).filter
        (ruleViolated goodCheck)) :=
  (getViolations_failfast goodCheck {"every-letter", "no-spaces"}).1 (by decide)

/-- C2: every terminating `mutateRuleset` run started from a valid
ruleset returns a valid ruleset; every `randomValidRuleset` result is
valid; and consequently every `evaluateChange` outcome (under any sort
implementation that permutes its input) keeps the active ruleset
valid. -/
theorem search_outputs_valid :
    (∀ (current : Finset String) (amount : Nat) (picks : List Nat)
        (out : Finset String × List Nat), isValidRuleset current = true →
        mutateRuleset current amount picks = some out →
        isValidRuleset out.1 = true)
    ∧ (∀ (rough : ℚ) (picks : Nat → Nat → Nat),
        isValidRuleset (randomValidRuleset rough picks) = true)
    ∧ (∀ (o : RandomOracle)
        (sortImpl : List (Finset String) → List (Finset String))
        (now : Int) (st st2 : EngineState),
        (∀ l, (sortImpl l).Perm l) → isValidRuleset st.activeRules = true →
        evaluateChange o sortImpl now st = some st2 →
        isValidRuleset st2.activeRules = true) := by
  refine ⟨?_, ?_, ?_⟩
  · intro current amount picks out hv h
    exact mutateRuleset_valid h hv
  · intro rough picks
    exact randomValidRuleset_valid rough picks
  · intro o sortImpl now st st2 hs hv h
    rcases evaluateChange_shape o sortImpl now st st2 h with rfl | rfl | ⟨rs, rfl, hm⟩
    · exact hv
    · exact randomValidRuleset_valid _ _
    · show isValidRuleset rs = true
      rcases hm with he | hh
      · rcases makeEasierRuleset_spec sortImpl hs _ _ _ _ he with ⟨hb, -⟩ | ⟨-, -, p, q, hmut⟩
        · simp at hb
        · exact mutateRuleset_valid hmut hv
      · rcases makeHarderRuleset_spec sortImpl hs _ _ _ _ hh with ⟨hb, -⟩ | ⟨-, -, p, q, hmut⟩
        · simp at hb
        · exact mutateRuleset_valid hmut hv

theorem search_outputs_valid_witness :
    isValidRuleset (({"no-spaces", "all-lowercase"} : Finset String)) = true :=
  search_outputs_valid.1 {"unique-messages"} 3 [3, 0, 7]
    ({"no-spaces", "all-lowercase"}, []) (by decide) rfl

/-- C3, counterexample: with target difficulty 0 every attempt builds the
empty set, so all 10 retries are consumed; `randomValidRuleset` then
returns the empty set as an ordinary value (its return type has no
error channel — the source only logs to the console), and `updateRules`
installs an empty ruleset it is handed instead of keeping the previous
one. -/
theorem searchExhausted_not_an_error_cex :
    randomValidRuleset 0 zeroPicks = ∅
    ∧ (updateRules (randomValidRuleset 0 zeroPicks) 0 prevState).activeRules = ∅
    ∧ prevState.activeRules ≠ ∅ := by
  refine ⟨rfl, rfl, by decide⟩

/-- C3, amended: `randomValidRuleset` surfaces no error — after its 10
retries it returns the (possibly empty) built set as a normal result,
and the regeneration paths install whatever it returns; however, for
every target difficulty of at least 1 (the controller's targets are
always at least 3) the returned ruleset is nonempty, so the degenerate
installation never occurs in the controller. -/
theorem randomValid_nonempty_for_positive_target (rough : ℚ)
    (picks : Nat → Nat → Nat) (h : 1 ≤ rough) :
    randomValidRuleset rough picks ≠ ∅ :=
  randomValidAux_nonempty rough picks h 10 0

theorem randomValid_nonempty_for_positive_target_witness :
    randomValidRuleset 6 zeroPicks ≠ ∅ :=
  randomValid_nonempty_for_positive_target 6 zeroPicks (by norm_num)

/-- C4: under the `c4picks` oracle, `makeEasierRuleset` on
`{"unique-messages"}` (difficulty 5) succeeds with
`{"all-lowercase", "no-punctuation"}` (difficulty 3), although the
generated candidates include `{"all-lowercase", "no-spaces"}` of
difficulty 4, which is strictly lower than 5 and strictly closer to it:
the selection is not the closest-from-below candidate.  The sort uses
the comparator `(a, b) => diff(current) - diff(a)`, which ignores `b`
and is strictly positive on every filtered element, so the order is
implementation-defined; `id` instantiates the engine-observed behaviour
(V8 moves nothing for such a comparator), making `.pop()` return the
last generated qualifying candidate regardless of distance. -/
theorem makeEasier_selects_farther_candidate :
    makeEasierRuleset id {"unique-messages"} c4picks =
      some (true, {"no-punctuation", "all-lowercase"})
    ∧ ({"all-lowercase", "no-spaces"} : Finset String) ∈ c4cands
    ∧ calculateDifficulty {"all-lowercase", "no-spaces"} = 4
    ∧ calculateDifficulty {"no-punctuation", "all-lowercase"} = 3
    ∧ calculateDifficulty {"unique-messages"} = 5 := by
  refine ⟨rfl, by decide, by decide, by decide, by decide⟩

/-- C5: for any order-preserving-or-not permutation sort and any valid
current ruleset, a terminating `makeEasierRuleset` call either fails
with the current ruleset returned unchanged or succeeds with a valid
ruleset of strictly lower difficulty; symmetrically,
`makeHarderRuleset` either fails with the current ruleset unchanged or
succeeds with a valid ruleset of strictly higher difficulty. -/
theorem nearest_easier_harder_contract
    (sortImpl : List (Finset String) → List (Finset String))
    (hs : ∀ l, (sortImpl l).Perm l)
    (current : Finset String) (hv : isValidRuleset current = true)
    (picks : List Nat) :
    (∀ (b : Bool) (R2 : Finset String),
      makeEasierRuleset sortImpl current picks = some (b, R2) →
      (b = false → R2 = current) ∧
      (b = true → calculateDifficulty R2 < calculateDifficulty current ∧
        isValidRuleset R2 = true))
    ∧ (∀ (b : Bool) (R2 : Finset String),
      makeHarderRuleset sortImpl current picks = some (b, R2) →
      (b = false → R2 = current) ∧
      (b = true → calculateDifficulty current < calculateDifficulty R2 ∧
        isValidRuleset R2 = true)) := by
  constructor <;> intro b R2 h
  · rcases makeEasierRuleset_spec sortImpl hs current picks b R2 h with
      ⟨rfl, rfl⟩ | ⟨rfl, hlt, p, q, hmut⟩
    · exact ⟨fun _ => rfl, by simp⟩
    · exact ⟨by simp, fun _ => ⟨hlt, mutateRuleset_valid hmut hv⟩⟩
  · rcases makeHarderRuleset_spec sortImpl hs current picks b R2 h with
      ⟨rfl, rfl⟩ | ⟨rfl, hlt, p, q, hmut⟩
    · exact ⟨fun _ => rfl, by simp⟩
    · exact ⟨by simp, fun _ => ⟨hlt, mutateRuleset_valid hmut hv⟩⟩

theorem nearest_easier_harder_contract_witness :
    calculateDifficulty ({"no-punctuation", "all-lowercase"} : Finset String) <
      calculateDifficulty ({"unique-messages"} : Finset String)
    ∧ isValidRuleset {"no-punctuation", "all-lowercase"} = true :=
  ((nearest_easier_harder_contract id (fun l => List.Perm.refl l)
      {"unique-messages"} (by decide) c4picks).1 true
      {"no-punctuation", "all-lowercase"} rfl).2 rfl

/-- C6: `updateRules` (regardless of which decision branch triggered it)
installs the new ruleset, empties the history window to length exactly
0 and resets the clock to the given time; `addToViolationHistory`
appends exactly one record and touches nothing else (in particular it
never performs a replacement); and every `some` outcome of
`evaluateChange` is either the unchanged state or a replacement with
freshly emptied history and reset clock. -/
theorem replacement_resets_history_appends :
    (∀ (newRuleset : Finset String) (now : Int) (st : EngineState),
      (updateRules newRuleset now st).activeRules = newRuleset ∧
      (updateRules newRuleset now st).history.length = 0 ∧
      (updateRules newRuleset now st).lastRulesetChange = now)
    ∧ (∀ (v : List Rule) (st : EngineState),
      (addToViolationHistory v st).history =
        st.history ++ [{ violations := v }] ∧
      (addToViolationHistory v st).activeRules = st.activeRules ∧
      (addToViolationHistory v st).lastRulesetChange = st.lastRulesetChange)
    ∧ (∀ (o : RandomOracle)
        (sortImpl : List (Finset String) → List (Finset String))
        (now : Int) (st st2 : EngineState),
      evaluateChange o sortImpl now st = some st2 →
      st2 = st ∨ (st2.history.length = 0 ∧ st2.lastRulesetChange = now)) := by
  refine ⟨fun newRuleset now st => ⟨rfl, rfl, rfl⟩,
    fun v st => ⟨rfl, rfl, rfl⟩, ?_⟩
  intro o sortImpl now st st2 h
  rcases evaluateChange_shape o sortImpl now st st2 h with rfl | rfl | ⟨rs, rfl, -⟩
  · exact Or.inl rfl
  · exact Or.inr ⟨rfl, rfl⟩
  · exact Or.inr ⟨rfl, rfl⟩

theorem replacement_resets_history_appends_witness :
    prevState = prevState ∨
      (prevState.history.length = 0 ∧ prevState.lastRulesetChange = 1) :=
  replacement_resets_history_appends.2.2 o0 id 1 prevState prevState rfl

/-- C7: whenever the elapsed time since the last ruleset change is
strictly below `minimumTimeBetweenChanges`, `evaluateChange` returns
the state unchanged (no replacement, no history or clock modification),
whatever the history contains and whatever the oracle supplies. -/
theorem decision_too_soon (o : RandomOracle)
    (sortImpl : List (Finset String) → List (Finset String))
    (now : Int) (st : EngineState)
    (h : now - st.lastRulesetChange < minimumTimeBetweenChanges) :
    evaluateChange o sortImpl now st = some st := by
  unfold evaluateChange
  rw [if_pos h]

theorem decision_too_soon_witness :
    evaluateChange o0 id (minimumTimeBetweenChanges - 1) fullFailState =
      some fullFailState :=
  decision_too_soon o0 id (minimumTimeBetweenChanges - 1) fullFailState
    (by decide)

/-- C8: `calculateDifficulty` is 0 on the empty set, additive over
disjoint unions, monotone under inserting any catalog rule, and every
catalog weight is at least 1. -/
theorem difficulty_additive (A B : Finset String) (hd : Disjoint A B) :
    calculateDifficulty ∅ = 0
    ∧ calculateDifficulty (A ∪ B) =
        calculateDifficulty A + calculateDifficulty B
    ∧ (∀ r ∈ rules,
        calculateDifficulty A ≤ calculateDifficulty (insert r.id A) ∧
        1 ≤ r.difficulty) := by
  refine ⟨rfl, ?_, ?_⟩
  · simp only [calculateDifficulty]
    exact Finset.sum_union hd
  · intro r hr
    refine ⟨?_, (by decide : ∀ r ∈ rules, 1 ≤ r.difficulty) r hr⟩
    by_cases hmem : r.id ∈ A
    · rw [Finset.insert_eq_self.mpr hmem]
    · simp only [calculateDifficulty]
      rw [Finset.sum_insert hmem]
      exact Nat.le_add_left _ _

theorem difficulty_additive_witness :
    calculateDifficulty (({"all-lowercase"} ∪ {"no-spaces"} : Finset String)) =
      calculateDifficulty {"all-lowercase"} + calculateDifficulty {"no-spaces"} :=
  (difficulty_additive {"all-lowercase"} {"no-spaces"} (by decide)).2.1

/-- C9: a terminating `mutateRuleset` run with an odd toggle count (in
particular the 3 used by the mutation search) never returns its input:
each iteration performs exactly one accepted membership flip, so the
cardinality parity alternates and after an odd number of flips it
differs from the input parity. -/
theorem mutate_odd_changes (current : Finset String) (k : Nat)
    (picks : List Nat) (out : Finset String × List Nat) (hk : Odd k)
    (h : mutateRuleset current k picks = some out) : out.1 ≠ current := by
  intro hc
  have hp := mutateRulesetAux_card_parity k current picks out h
  rw [hc] at hp
  obtain ⟨m, rfl⟩ := hk
  omega

theorem mutate_odd_changes_witness :
    ({"no-punctuation", "no-spaces", "all-lowercase"} : Finset String) ≠
      (∅ : Finset String) :=
  mutate_odd_changes ∅ 3 [0, 7, 8]
    ({"no-punctuation", "no-spaces", "all-lowercase"}, []) ⟨1, by norm_num⟩ rfl

/-- C10: `getFailRatio` has a zero denominator exactly on the empty
history (modelled as `none`, the source computes `0 / 0 = NaN`); any
history of at least `minimumSampleSize` records yields a defined ratio;
and whenever the history is shorter than `minimumSampleSize`,
`evaluateChange` returns before the branch that consults the ratio
(its only possible outcomes are the unchanged state and the
elapsed-time-triggered full regeneration). -/
theorem failRatio_guarded :
    getFailRatio [] = none
    ∧ (∀ history : List ViolationRecord,
        minimumSampleSize ≤ history.length →
        ∃ q, getFailRatio history = some q)
    ∧ (∀ (o : RandomOracle)
        (sortImpl : List (Finset String) → List (Finset String))
        (now : Int) (st : EngineState),
        st.history.length < minimumSampleSize →
        evaluateChange o sortImpl now st = some st ∨
        evaluateChange o sortImpl now st =
          some (updateRules (randomValidRuleset (regenTarget st) o.buildPicks)
            now st)) := by
  refine ⟨rfl, ?_, ?_⟩
  · intro history hlen
    unfold getFailRatio
    rw [if_neg (by simp only [minimumSampleSize] at hlen; omega)]
    exact ⟨_, rfl⟩
  · intro o sortImpl now st hlen
    unfold evaluateChange
    by_cases h1 : now - st.lastRulesetChange < minimumTimeBetweenChanges
    · rw [if_pos h1]
      exact Or.inl rfl
    rw [if_neg h1]
    by_cases h2 : maximumTimeBetweenChanges < now - st.lastRulesetChange
    · rw [if_pos h2]
      exact Or.inr rfl
    rw [if_neg h2, if_pos hlen]
    exact Or.inl rfl

theorem failRatio_guarded_witness :
    evaluateChange o0 id 400000 prevState = some prevState ∨
    evaluateChange o0 id 400000 prevState =
      some (updateRules (randomValidRuleset (regenTarget prevState)
        o0.buildPicks) 400000 prevState) :=
  failRatio_guarded.2.2 o0 id 400000 prevState (by decide)

end Chameleon
